import Mathlib

/-!
Verification of the taxonomy-resolution core of
`src/simulate_metagenomes/blast_sorter.py`: the coverage-interval merger
`get_coverages` and the per-contig resolver `assign_tax`.

Hit records are the rows of the parsed BLAST frame (the `make_raw_df`
columns); `e_val` is modelled as a rational number, coordinates and
lengths as integers.  `pandas.DataFrame.sort_values` is modelled as a
stable sort: with several `by` keys pandas sorts via `numpy.lexsort`,
which is always stable, and the single-key sorts act on per-contig
frames whose sizes keep numpy's introsort in its stable insertion-sort
regime.
-/

/-- One parsed BLAST hit: the seven columns produced by `make_raw_df`
(`query_id, hit_id, e_val, query_length, alignment_length, start, end`).
The `end` column is called `end_` because `end` is a Lean keyword. -/
structure Hit where
  query_id : String
  hit_id : String
  e_val : ℚ
  query_length : Int
  alignment_length : Int
  start : Int
  end_ : Int
deriving DecidableEq

/-- A row of a sorted frame (the `make_sorted_df` columns): a hit plus the
`origin` tag. -/
structure SortedRow where
  hit : Hit
  origin : String
deriving DecidableEq

/-- Insertion step of a stable insertion sort: `x` is placed after every
element `y` with `lt y x` and before the first element that is not
strictly below `x`, so elements tied with `x` that were already in the
list keep their position relative to `x`. -/
def insertS (lt : α → α → Bool) (x : α) : List α → List α
  | [] => [x]
  | y :: ys => if lt y x then y :: insertS lt x ys else x :: y :: ys

/-- Model of `DataFrame.sort_values`: a stable sort by the strict
comparison `lt` (rows tied under `lt` keep their original order). -/
def sort_values (lt : α → α → Bool) (l : List α) : List α :=
  l.foldr (insertS lt) []

/-- Strict comparison for `sort_values(by='e_val', ascending=True)`. -/
def ltEval (a b : Hit) : Bool :=
  decide (a.e_val < b.e_val)

/-- Strict comparison for
`sort_values(by=['e_val', 'alignment_length'], ascending=[True, False])`:
ascending e-value, then descending alignment length. -/
def ltEvalLen (a b : Hit) : Bool :=
  decide (a.e_val < b.e_val ∨ (a.e_val = b.e_val ∧ b.alignment_length < a.alignment_length))

/-- Strict comparison for `sort_values(by='start', ascending=True)`. -/
def ltStart (a b : Hit) : Bool :=
  decide (a.start < b.start)

/-- The best-hit selection used in both the single-interval branch and the
per-interval chimera branch of `assign_tax`:
`hits.sort_values(by=['e_val', 'alignment_length'], ascending=[True, False]).head(1)`. -/
def best1 (l : List Hit) : List Hit :=
  (sort_values ltEvalLen l).take 1

/-- Model of `np.where(overlapping)[0]` inside `get_coverages`: the list of
positions (counted from `i`) of the accumulated coverage regions whose
range contains `s` (`cov_start <= start <= cov_end`), each paired with the
region sitting at that position. -/
def matchingIdxFrom (i : Nat) (s : Int) : List (Int × Int) → List (Nat × (Int × Int))
  | [] => []
  | c :: cs =>
    if c.1 ≤ s ∧ s ≤ c.2 then (i, c) :: matchingIdxFrom (i + 1) s cs
    else matchingIdxFrom (i + 1) s cs

/-- One iteration of the `get_coverages` loop over a hit region `sp`.
If no accumulated region overlaps `sp.1`, the region is appended; if
exactly one does, its end is expanded to `max(end, cov_end)`.  When more
than one region overlaps, the source's `int(np.where(overlapping)[0])`
raises `TypeError` (a size-2 array cannot be converted to a scalar), which
is modelled as `none`. -/
def covStep (covs : List (Int × Int)) (sp : Int × Int) : Option (List (Int × Int)) :=
  match matchingIdxFrom 0 sp.1 covs with
  | [] => some (covs ++ [sp])
  | [(i, c)] => some (covs.set i (c.1, max sp.2 c.2))
  | _ => none

/-- The `for (start, end) in zip(starts, ends)` loop of `get_coverages`. -/
def covLoop (covs : List (Int × Int)) : List (Int × Int) → Option (List (Int × Int))
  | [] => some covs
  | sp :: rest =>
    match covStep covs sp with
    | none => none
    | some covs' => covLoop covs' rest

/-- Model of Python's `list.remove`: delete the first occurrence of `v`. -/
def removeFirst : List (Int × Int) → (Int × Int) → List (Int × Int)
  | [], _ => []
  | c :: cs, v => if c = v then cs else c :: removeFirst cs v

/-- The final `if (1, 1) in coverages: coverages.remove((1, 1))` of
`get_coverages`. -/
def removeSentinel (l : List (Int × Int)) : List (Int × Int) :=
  if ((1 : Int), (1 : Int)) ∈ l then removeFirst l (1, 1) else l

/-- `get_coverages(starts, ends)`: merge the hit regions into coverage
regions, starting from the sentinel accumulator `[(1, 1)]` and removing an
unconsumed sentinel at the end.  `none` models the `TypeError` raised when
a region overlaps more than one accumulated region. -/
def get_coverages (starts ends : List Int) : Option (List (Int × Int)) :=
  (covLoop [(1, 1)] (starts.zip ends)).map removeSentinel

/-- `assign_tax(df)`: resolve the taxonomy of one contig.  Rebinding
`df = df.sort_values(...)` is modelled by `dfE`; the two `iterrows` scans
are `find?` over the e-value-sorted rows; the chimera branch's
`df['origin'] = 'chimera'` sets a column that the subsequent filtering and
sorting never read, so the tag is attached at emission.  `none` models an
uncaught `TypeError` escaping from `get_coverages`. -/
def assign_tax (df : List Hit) : Option (List SortedRow) :=
  if df.length = 1 then
    some (df.map (fun h => ⟨h, "single"⟩))
  else
    let dfE := sort_values ltEval df
    match dfE.find? (fun h => decide (h.query_length = h.alignment_length)) with
    | some hit => some [⟨hit, "single"⟩]
    | none =>
      match dfE.find? (fun h => decide (h.query_length < h.alignment_length)) with
      | some hit => some [⟨hit, "single"⟩]
      | none =>
        let ss := sort_values ltStart dfE
        match get_coverages (ss.map Hit.start) (ss.map Hit.end_) with
        | none => none
        | some coverages =>
          if coverages.length = 1 then
            some ((best1 dfE).map (fun h => ⟨h, "single"⟩))
          else
            some ((coverages.map (fun c =>
              (best1 (dfE.filter (fun h => decide (c.1 ≤ h.start ∧ h.end_ ≤ c.2)))).map
                (fun h => (⟨h, "chimera"⟩ : SortedRow)))).flatten)

/-- Model of the caller-visible state of the frame passed to `assign_tax`.
In the single-hit branch the source executes `df['origin'] = 'single'` on
the caller's own frame (the parameter has not been rebound) and returns
that very frame, so the caller's records gain an `origin` column
(`Sum.inr` of the mutated frame); in every other branch `df` is rebound to
a fresh frame by `sort_values` before any column assignment, so the
caller's frame is untouched (`Sum.inl` of the unchanged input). -/
def assign_tax_caller_frame (df : List Hit) : List Hit ⊕ List SortedRow :=
  if df.length = 1 then
    Sum.inr (df.map (fun h => ⟨h, "single"⟩))
  else
    Sum.inl df

/-! ### Generic lemmas about the stable insertion sort -/

theorem insertS_cons_lt (lt : α → α → Bool) (x y : α) (ys : List α)
    (h : lt y x = true) : insertS lt x (y :: ys) = y :: insertS lt x ys := by
  simp [insertS, h]

theorem insertS_cons_ge (lt : α → α → Bool) (x y : α) (ys : List α)
    (h : lt y x = false) : insertS lt x (y :: ys) = x :: y :: ys := by
  simp [insertS, h]

theorem sort_values_cons (lt : α → α → Bool) (x : α) (xs : List α) :
    sort_values lt (x :: xs) = insertS lt x (sort_values lt xs) := rfl

theorem mem_insertS (lt : α → α → Bool) (x : α) (l : List α) (a : α) :
    a ∈ insertS lt x l ↔ a = x ∨ a ∈ l := by
  induction l with
  | nil => simp [insertS]
  | cons y ys ih =>
    cases h : lt y x with
    | true => rw [insertS_cons_lt lt x y ys h]; simp [List.mem_cons, ih]; tauto
    | false => rw [insertS_cons_ge lt x y ys h]; simp [List.mem_cons]

theorem length_insertS (lt : α → α → Bool) (x : α) (l : List α) :
    (insertS lt x l).length = l.length + 1 := by
  induction l with
  | nil => rfl
  | cons y ys ih =>
    cases h : lt y x with
    | true => rw [insertS_cons_lt lt x y ys h]; simp [ih]
    | false => rw [insertS_cons_ge lt x y ys h]; simp

theorem mem_sort_values (lt : α → α → Bool) (l : List α) (a : α) :
    a ∈ sort_values lt l ↔ a ∈ l := by
  induction l with
  | nil => simp [sort_values]
  | cons y ys ih =>
    rw [sort_values_cons, mem_insertS, ih]
    simp [List.mem_cons]

theorem length_sort_values (lt : α → α → Bool) (l : List α) :
    (sort_values lt l).length = l.length := by
  induction l with
  | nil => rfl
  | cons y ys ih =>
    rw [sort_values_cons, length_insertS, ih]
    simp

theorem pairwise_insertS (lt : α → α → Bool)
    (hasym : ∀ a b, lt a b = true → lt b a = false)
    (hneg : ∀ a b c, lt b a = false → lt c b = false → lt c a = false)
    (x : α) (l : List α) (hl : l.Pairwise (fun a b => lt b a = false)) :
    (insertS lt x l).Pairwise (fun a b => lt b a = false) := by
  induction l with
  | nil => simp [insertS]
  | cons y ys ih =>
    rcases List.pairwise_cons.mp hl with ⟨hy, hys⟩
    cases h : lt y x with
    | true =>
      rw [insertS_cons_lt lt x y ys h, List.pairwise_cons]
      refine ⟨fun z hz => ?_, ih hys⟩
      rcases (mem_insertS lt x ys z).mp hz with rfl | hz
      · exact hasym _ _ h
      · exact hy z hz
    | false =>
      rw [insertS_cons_ge lt x y ys h, List.pairwise_cons, List.pairwise_cons]
      refine ⟨fun z hz => ?_, hy, hys⟩
      rcases List.mem_cons.mp hz with rfl | hz
      · exact h
      · exact hneg x y z h (hy z hz)

theorem pairwise_sort_values (lt : α → α → Bool)
    (hasym : ∀ a b, lt a b = true → lt b a = false)
    (hneg : ∀ a b c, lt b a = false → lt c b = false → lt c a = false)
    (l : List α) :
    (sort_values lt l).Pairwise (fun a b => lt b a = false) := by
  induction l with
  | nil => simp [sort_values]
  | cons y ys ih =>
    rw [sort_values_cons]
    exact pairwise_insertS lt hasym hneg y _ ih

theorem sort_values_head_min (lt : α → α → Bool)
    (hasym : ∀ a b, lt a b = true → lt b a = false)
    (hneg : ∀ a b c, lt b a = false → lt c b = false → lt c a = false)
    (l : List α) (b : α) (rest : List α) (h : sort_values lt l = b :: rest) :
    ∀ g ∈ l, lt g b = false := by
  intro g hg
  have hmem : g ∈ b :: rest := by
    rw [← h, mem_sort_values]; exact hg
  rcases List.mem_cons.mp hmem with rfl | hmem
  · cases hbb : lt g g with
    | true => exact absurd (hasym _ _ hbb) (by simp [hbb])
    | false => rfl
  · have hp := pairwise_sort_values lt hasym hneg l
    rw [h, List.pairwise_cons] at hp
    exact hp.1 g hmem

theorem filter_insertS_pos (lt : α → α → Bool) (q : α → Bool) (x : α)
    (hqx : q x = true) (hq : ∀ y, q y = true → lt y x = false) (l : List α) :
    (insertS lt x l).filter q = x :: l.filter q := by
  induction l with
  | nil => simp [insertS, List.filter, hqx]
  | cons y ys ih =>
    cases h : lt y x with
    | true =>
      have hqy : q y = false := by
        cases hqy : q y with
        | true => exact absurd (hq y hqy) (by simp [h])
        | false => rfl
      rw [insertS_cons_lt lt x y ys h]
      simp [List.filter, hqy, ih]
    | false =>
      rw [insertS_cons_ge lt x y ys h]
      simp [List.filter, hqx]

theorem filter_insertS_neg (lt : α → α → Bool) (q : α → Bool) (x : α)
    (hqx : q x = false) (l : List α) :
    (insertS lt x l).filter q = l.filter q := by
  induction l with
  | nil => simp [insertS, List.filter, hqx]
  | cons y ys ih =>
    cases h : lt y x with
    | true =>
      rw [insertS_cons_lt lt x y ys h]
      simp [List.filter, ih]
    | false =>
      rw [insertS_cons_ge lt x y ys h]
      simp [List.filter, hqx]

theorem filter_sort_values (lt : α → α → Bool) (q : α → Bool)
    (hq : ∀ a b, q a = true → q b = true → lt a b = false) (l : List α) :
    (sort_values lt l).filter q = l.filter q := by
  induction l with
  | nil => rfl
  | cons x xs ih =>
    rw [sort_values_cons]
    cases hx : q x with
    | true =>
      rw [filter_insertS_pos lt q x hx (fun y hy => hq y x hy hx), ih]
      simp [List.filter, hx]
    | false =>
      rw [filter_insertS_neg lt q x hx, ih]
      simp [List.filter, hx]

/-! ### Properties of the concrete comparison functions -/

theorem ltEval_asym : ∀ a b : Hit, ltEval a b = true → ltEval b a = false := by
  intro a b h
  simp only [ltEval, decide_eq_true_eq] at h
  simp only [ltEval, decide_eq_false_iff_not, not_lt]
  linarith

theorem ltEval_negtrans :
    ∀ a b c : Hit, ltEval b a = false → ltEval c b = false → ltEval c a = false := by
  intro a b c h1 h2
  simp only [ltEval, decide_eq_false_iff_not, not_lt] at *
  linarith

theorem ltEvalLen_asym : ∀ a b : Hit, ltEvalLen a b = true → ltEvalLen b a = false := by
  intro a b h
  simp only [ltEvalLen, decide_eq_true_eq] at h
  simp only [ltEvalLen, decide_eq_false_iff_not, not_or, not_and, not_lt]
  rcases h with h | ⟨he, hl⟩
  · exact ⟨le_of_lt h, fun he2 => absurd he2 (by intro hx; linarith)⟩
  · exact ⟨le_of_eq he, fun _ => le_of_lt hl⟩

theorem ltEvalLen_negtrans :
    ∀ a b c : Hit, ltEvalLen b a = false → ltEvalLen c b = false →
      ltEvalLen c a = false := by
  intro a b c hba hcb
  simp only [ltEvalLen, decide_eq_false_iff_not, not_or, not_and, not_lt] at *
  obtain ⟨hba1, hba2⟩ := hba
  obtain ⟨hcb1, hcb2⟩ := hcb
  refine ⟨le_trans hba1 hcb1, fun hce => ?_⟩
  have hbe : b.e_val = a.e_val := le_antisymm (hce ▸ hcb1) hba1
  have hcbe : c.e_val = b.e_val := by rw [hbe]; exact hce
  exact le_trans (hcb2 hcbe) (hba2 hbe)

/-! ### Example hits used by the witnesses (taken from the source's tests) -/

/-- The rational `1.16e-28 = 29 / 2.5e29`, written in lowest terms so that
kernel reduction never has to normalize it. -/
def eVal116 : ℚ := ⟨29, 250000000000000000000000000000, by decide, by decide⟩

/-- The rational `0.05 = 1/20`, written in lowest terms. -/
def eVal005 : ℚ := ⟨1, 20, by decide, by decide⟩

/-- Full-length hit with e-value `1.16e-28` (test_various_full_hits). -/
def hitV1 : Hit := ⟨"k1_1", "GCF_001", eVal116, 535, 535, 1, 535⟩

/-- Full-length hit with e-value `0` (test_various_full_hits). -/
def hitV2 : Hit := ⟨"k1_1", "GCF_002", 0, 535, 535, 1, 535⟩

/-- Short hit on a 570-base contig (test_longer_than_query). -/
def hitO1 : Hit := ⟨"k1_1", "GCF_001", 0, 570, 417, 1, 416⟩

/-- Over-length hit on a 570-base contig (test_longer_than_query). -/
def hitO2 : Hit := ⟨"k1_1", "GCF_002", 0, 570, 571, 1, 570⟩

/-- Single full-length hit (test_single_hit). -/
def hitS : Hit := ⟨"k1_1", "GCF_001", 0, 535, 535, 1, 535⟩

/-! ### C2: first full-length hit in e-value order wins -/

/-- **C2**: for a hit set with more than one hit, `assign_tax` sorts the hits
by ascending `e_val` and returns, alone and tagged `single`, the first hit in
that sorted order whose `alignment_length` equals `query_length`; `find?`
returns the first match of the scan, so no further hits are examined. -/
theorem assign_tax_full_length_first (df : List Hit) (hit : Hit)
    (hlen : 1 < df.length)
    (hfind : (sort_values ltEval df).find?
        (fun h => decide (h.query_length = h.alignment_length)) = some hit) :
    assign_tax df = some [⟨hit, "single"⟩] := by
  have hne : df.length ≠ 1 := by omega
  simp [assign_tax, hne, hfind]

/-- **C2 witness**: on the two full-length hits with e-values `1.16e-28` and
`0` over `query_length = 535`, the `e = 0` hit is the sole output. -/
theorem assign_tax_full_length_first_witness :
    assign_tax [hitV1, hitV2] = some [⟨hitV2, "single"⟩] :=
  assign_tax_full_length_first [hitV1, hitV2] hitV2 (by decide) (by decide)

/-! ### C3: first over-length hit in e-value order wins -/

/-- **C3**: for a hit set with more than one hit and no hit whose
`alignment_length` equals `query_length`, `assign_tax` scans the
e-value-sorted hits and returns, alone and tagged `single`, the first hit
whose `alignment_length` strictly exceeds `query_length`. -/
theorem assign_tax_over_length_first (df : List Hit) (hit : Hit)
    (hlen : 1 < df.length)
    (hnone : (sort_values ltEval df).find?
        (fun h => decide (h.query_length = h.alignment_length)) = none)
    (hfind : (sort_values ltEval df).find?
        (fun h => decide (h.query_length < h.alignment_length)) = some hit) :
    assign_tax df = some [⟨hit, "single"⟩] := by
  have hne : df.length ≠ 1 := by omega
  simp [assign_tax, hne, hnone, hfind]

/-- **C3 witness**: of the hits `(e=0, qlen=570, len=417)` and
`(e=0, qlen=570, len=571)` neither matches the query length exactly, and the
over-spanning second hit is returned alone, tagged `single`. -/
theorem assign_tax_over_length_first_witness :
    assign_tax [hitO1, hitO2] = some [⟨hitO2, "single"⟩] :=
  assign_tax_over_length_first [hitO1, hitO2] hitO2 (by decide) (by decide) (by decide)

/-! ### C8: concrete Coverage Merger results -/

/-- **C8**: `get_coverages` merges `[(2,5),(3,6)]` to `[(2,6)]`, merges the
spans `[(2,10),(10,20)]` touching at one shared coordinate to `[(2,20)]`, and
keeps the disjoint spans `[(1,10),(20,30)]` separate. -/
theorem get_coverages_examples :
    get_coverages [2, 3] [5, 6] = some [(2, 6)] ∧
    get_coverages [2, 10] [10, 20] = some [(2, 20)] ∧
    get_coverages [1, 20] [10, 30] = some [(1, 10), (20, 30)] :=
  ⟨by decide, by decide, by decide⟩

/-! ### C10: empty input -/

/-- **C10**: on an empty hit collection `assign_tax` raises no error and
returns an empty output: the e-value scans find nothing, `get_coverages`
returns no interval (the sentinel is removed), and the chimera loop over zero
intervals emits zero records. -/
theorem assign_tax_empty : assign_tax [] = some [] := by decide

/-! ### C9: the single-hit branch mutates the caller's frame -/

/-- **C9 counterexample**: on a one-hit input the source's
`df['origin'] = 'single'` adds the `origin` column to the caller's own frame
and returns that same frame, so the input is modified and the result is not
an independent record: the caller-visible frame after the call is the mutated
`Sum.inr` value, not the untouched `Sum.inl` input. -/
theorem assign_tax_mutates_single_cex :
    assign_tax_caller_frame [hitS] = Sum.inr [⟨hitS, "single"⟩] ∧
    assign_tax_caller_frame [hitS] ≠ Sum.inl [hitS] :=
  ⟨by decide, by decide⟩

/-- **C9 amended**: `assign_tax` leaves its input unmodified whenever the
input has any number of hits other than one, and on a one-hit input it adds
`origin = 'single'` to the caller's records in place and returns that same
mutated frame. -/
theorem assign_tax_caller_frame_spec (df : List Hit) :
    (df.length ≠ 1 → assign_tax_caller_frame df = Sum.inl df) ∧
    (df.length = 1 →
      assign_tax_caller_frame df = Sum.inr (df.map (fun h => ⟨h, "single"⟩)) ∧
      assign_tax df = some (df.map (fun h => ⟨h, "single"⟩))) := by
  constructor
  · intro h
    simp [assign_tax_caller_frame, h]
  · intro h
    exact ⟨by simp [assign_tax_caller_frame, h], by simp [assign_tax, h]⟩

/-- **C9 amended witness**: a two-hit call leaves the caller's frame
untouched, and a one-hit call rewrites it in place. -/
theorem assign_tax_caller_frame_spec_witness :
    (assign_tax_caller_frame [hitO1, hitO2] = Sum.inl [hitO1, hitO2]) ∧
    (assign_tax_caller_frame [hitS] = Sum.inr [⟨hitS, "single"⟩] ∧
      assign_tax [hitS] = some [⟨hitS, "single"⟩]) :=
  ⟨(assign_tax_caller_frame_spec [hitO1, hitO2]).1 (by decide),
   (assign_tax_caller_frame_spec [hitS]).2 (by decide)⟩

/-! ### C5 and C6 counterexamples -/

/-- **C5 counterexample**: for the start-sorted spans `(0,0), (1,2)` the
merger returns `[(1,2), (0,0)]`.  The sentinel accumulator occupies position
0 and only absorbs the span `(1,2)` after `(0,0)` has been appended, so the
interval of the first-encountered span `(0,0)` is emitted second: the result
is not in first-encountered order of origin span (equivalently, it violates
the ascending disjoint ordering `c.end < d.start` of consecutive intervals
that the amended claim proves). -/
theorem get_coverages_order_cex :
    ([((0 : Int), (0 : Int)), (1, 2)].Pairwise (fun a b => a.1 ≤ b.1)) ∧
    get_coverages [0, 1] [0, 2] = some [(1, 2), (0, 0)] ∧
    ¬ ([((1 : Int), (2 : Int)), (0, 0)].Pairwise (fun c d => c.2 < d.1)) := by
  refine ⟨by decide, by decide, by decide⟩

/-- **C6 counterexample**: for the start-sorted spans
`(1,1), (5,10), (20,30)` the merger reaches the chimera case (two intervals)
but returns `[(5,10), (20,30)]`: the genuine single-base span `(1,1)` merged
into the sentinel, left it equal to `(1,1)`, and was removed with it, so the
contig position `1`, covered by an input span, is absent from every returned
interval. -/
theorem get_coverages_completeness_cex :
    ([((1 : Int), (1 : Int)), (5, 10), (20, 30)].Pairwise (fun a b => a.1 ≤ b.1)) ∧
    get_coverages [1, 5, 20] [1, 10, 30] = some [(5, 10), (20, 30)] ∧
    2 ≤ [((5 : Int), (10 : Int)), (20, 30)].length ∧
    (∃ sp ∈ [((1 : Int), (1 : Int)), (5, 10), (20, 30)], sp.1 ≤ 1 ∧ 1 ≤ sp.2) ∧
    ¬ (∃ c ∈ [((5 : Int), (10 : Int)), (20, 30)], c.1 ≤ 1 ∧ 1 ≤ c.2) := by
  refine ⟨by decide, by decide, by decide, by decide, by decide⟩

/-! ### C7: the selection is minimal and stable -/

/-- **C7**: whenever the best-hit selection `best1` (used by `assign_tax` in
both the single-interval branch and the per-interval chimera branch) returns
a hit `b`, then `b` ranks no worse than any candidate under (ascending
`e_val`, descending `alignment_length`), and among the candidates exactly
tied with `b` on both keys, `b` is the one occurring first in the candidate
list's original order (the sort is stable). -/
theorem best1_min_and_stable (l : List Hit) (b : Hit) (hb : best1 l = [b]) :
    (∀ g ∈ l, ltEvalLen g b = false) ∧
    (l.filter (fun g =>
      decide (g.e_val = b.e_val ∧ g.alignment_length = b.alignment_length))).head?
      = some b := by
  obtain ⟨rest, hbr⟩ : ∃ rest, sort_values ltEvalLen l = b :: rest := by
    cases hsv : sort_values ltEvalLen l with
    | nil => rw [best1, hsv] at hb; simp at hb
    | cons x xs =>
      rw [best1, hsv] at hb
      simp at hb
      exact ⟨xs, by rw [hb]⟩
  constructor
  · exact sort_values_head_min ltEvalLen ltEvalLen_asym ltEvalLen_negtrans l b rest hbr
  · have hq : ∀ x y : Hit,
        decide (x.e_val = b.e_val ∧ x.alignment_length = b.alignment_length) = true →
        decide (y.e_val = b.e_val ∧ y.alignment_length = b.alignment_length) = true →
        ltEvalLen x y = false := by
      intro x y hx hy
      simp only [decide_eq_true_eq] at hx hy
      simp only [ltEvalLen, decide_eq_false_iff_not, not_or, not_and, not_lt]
      constructor
      · rw [hx.1, hy.1]
      · intro _
        rw [hx.2, hy.2]
    have hfil := filter_sort_values ltEvalLen
      (fun g => decide (g.e_val = b.e_val ∧ g.alignment_length = b.alignment_length)) hq l
    rw [← hfil, hbr]
    simp [List.filter]

/-- First of two fully tied hits (test_chimera region A). -/
def hitC1 : Hit := ⟨"k1_1", "GCF_001", 0, 500, 200, 1, 199⟩

/-- Second of two fully tied hits (test_chimera region A). -/
def hitC2 : Hit := ⟨"k1_1", "GCF_002", 0, 500, 200, 3, 201⟩

/-- **C7 witness**: two hits fully tied on `(e_val, alignment_length)`;
the selection returns the first of them in input order. -/
theorem best1_min_and_stable_witness :
    (∀ g ∈ [hitC1, hitC2], ltEvalLen g hitC1 = false) ∧
    ([hitC1, hitC2].filter (fun g =>
      decide (g.e_val = hitC1.e_val ∧ g.alignment_length = hitC1.alignment_length))).head?
      = some hitC1 :=
  best1_min_and_stable [hitC1, hitC2] hitC1 (by decide)

/-! ### C4: single merged interval, best hit over all hits -/

/-- **C4**: for a hit set with more than one hit, no full-length or
over-length hit, and whose start-sorted spans merge into exactly one
interval, `assign_tax` returns alone, tagged `single`, a hit of the input
that ranks best over all hits by ascending `e_val` then descending
`alignment_length`. -/
theorem assign_tax_single_interval_best (df : List Hit) (covs : List (Int × Int))
    (hlen : 1 < df.length)
    (hnone1 : (sort_values ltEval df).find?
        (fun h => decide (h.query_length = h.alignment_length)) = none)
    (hnone2 : (sort_values ltEval df).find?
        (fun h => decide (h.query_length < h.alignment_length)) = none)
    (hcov : get_coverages
        ((sort_values ltStart (sort_values ltEval df)).map Hit.start)
        ((sort_values ltStart (sort_values ltEval df)).map Hit.end_) = some covs)
    (hone : covs.length = 1) :
    ∃ b : Hit, assign_tax df = some [⟨b, "single"⟩] ∧ b ∈ df ∧
      ∀ g ∈ df, ltEvalLen g b = false := by
  have hne : df.length ≠ 1 := by omega
  have hlen2 : (sort_values ltEvalLen (sort_values ltEval df)).length = df.length := by
    rw [length_sort_values, length_sort_values]
  obtain ⟨b, rest, hbr⟩ :
      ∃ b rest, sort_values ltEvalLen (sort_values ltEval df) = b :: rest := by
    cases hsv : sort_values ltEvalLen (sort_values ltEval df) with
    | nil => rw [hsv] at hlen2; simp at hlen2; omega
    | cons x xs => exact ⟨x, xs, rfl⟩
  refine ⟨b, ?_, ?_, ?_⟩
  · simp [assign_tax, hne, hnone1, hnone2, hcov, hone, best1, hbr]
  · have hmem : b ∈ sort_values ltEvalLen (sort_values ltEval df) := by
      rw [hbr]; exact List.mem_cons_self _ _
    rw [mem_sort_values, mem_sort_values] at hmem
    exact hmem
  · intro g hg
    have hgE : g ∈ sort_values ltEval df := by rw [mem_sort_values]; exact hg
    exact sort_values_head_min ltEvalLen ltEvalLen_asym ltEvalLen_negtrans
      (sort_values ltEval df) b rest hbr g hgE

/-- Overlapping short hit used by the C4 witness (test_no_full_hits). -/
def hitN3 : Hit := ⟨"k1_1", "GCF_003", eVal005, 570, 500, 1, 499⟩

/-- **C4 witness**: three overlapping hits with e-values `0, 0, 0.05` and
lengths `417, 405, 500`, all shorter than `query_length = 570`, merge into
one interval; the single best hit `(e=0, len=417)` is returned tagged
`single`. -/
theorem assign_tax_single_interval_best_witness :
    ∃ b : Hit,
      assign_tax [hitO1, ⟨"k1_1", "GCF_002", 0, 570, 405, 1, 404⟩, hitN3]
        = some [⟨b, "single"⟩] ∧
      b ∈ [hitO1, ⟨"k1_1", "GCF_002", 0, 570, 405, 1, 404⟩, hitN3] ∧
      ∀ g ∈ [hitO1, ⟨"k1_1", "GCF_002", 0, 570, 405, 1, 404⟩, hitN3],
        ltEvalLen g b = false :=
  assign_tax_single_interval_best
    [hitO1, ⟨"k1_1", "GCF_002", 0, 570, 405, 1, 404⟩, hitN3] [(1, 499)]
    (by decide) (by decide) (by decide) (by decide) (by decide)

/-! ### Basic lemmas about the coverage-merge primitives -/

theorem matchingIdxFrom_cons_pos (i : Nat) (s : Int) (c : Int × Int)
    (cs : List (Int × Int)) (h : c.1 ≤ s ∧ s ≤ c.2) :
    matchingIdxFrom i s (c :: cs) = (i, c) :: matchingIdxFrom (i + 1) s cs := by
  simp [matchingIdxFrom, h]

theorem matchingIdxFrom_cons_neg (i : Nat) (s : Int) (c : Int × Int)
    (cs : List (Int × Int)) (h : ¬(c.1 ≤ s ∧ s ≤ c.2)) :
    matchingIdxFrom i s (c :: cs) = matchingIdxFrom (i + 1) s cs := by
  simp [matchingIdxFrom, h]

theorem matchingIdxFrom_eq_nil (covs : List (Int × Int)) (s : Int) :
    ∀ i, (∀ c ∈ covs, ¬(c.1 ≤ s ∧ s ≤ c.2)) → matchingIdxFrom i s covs = [] := by
  induction covs with
  | nil => intro i _; rfl
  | cons c cs ih =>
    intro i h
    rw [matchingIdxFrom_cons_neg i s c cs (h c (List.mem_cons_self _ _))]
    exact ih (i + 1) (fun d hd => h d (List.mem_cons_of_mem _ hd))

theorem matchingIdxFrom_ne_nil (covs : List (Int × Int)) (s : Int) (c : Int × Int)
    (hc : c ∈ covs) (h1 : c.1 ≤ s) (h2 : s ≤ c.2) :
    ∀ i, matchingIdxFrom i s covs ≠ [] := by
  induction covs with
  | nil => cases hc
  | cons d ds ih =>
    intro i
    by_cases hd : d.1 ≤ s ∧ s ≤ d.2
    · rw [matchingIdxFrom_cons_pos i s d ds hd]
      exact List.cons_ne_nil _ _
    · rcases List.mem_cons.mp hc with rfl | hc
      · exact absurd ⟨h1, h2⟩ hd
      · rw [matchingIdxFrom_cons_neg i s d ds hd]
        exact ih hc (i + 1)

theorem matchingIdxFrom_mem (covs : List (Int × Int)) (s : Int) :
    ∀ (i : Nat) (p : Nat × (Int × Int)), p ∈ matchingIdxFrom i s covs →
      i ≤ p.1 ∧ covs[p.1 - i]? = some p.2 ∧ p.2.1 ≤ s ∧ s ≤ p.2.2 := by
  induction covs with
  | nil => intro i p hp; cases hp
  | cons c cs ih =>
    intro i p hp
    by_cases hc : c.1 ≤ s ∧ s ≤ c.2
    · rw [matchingIdxFrom_cons_pos i s c cs hc] at hp
      rcases List.mem_cons.mp hp with rfl | hp
      · simpa using hc
      · obtain ⟨hle, hget, hm⟩ := ih (i + 1) p hp
        refine ⟨by omega, ?_, hm⟩
        have hidx : p.1 - i = (p.1 - (i + 1)) + 1 := by omega
        rw [hidx, List.getElem?_cons_succ]
        exact hget
    · rw [matchingIdxFrom_cons_neg i s c cs hc] at hp
      obtain ⟨hle, hget, hm⟩ := ih (i + 1) p hp
      refine ⟨by omega, ?_, hm⟩
      have hidx : p.1 - i = (p.1 - (i + 1)) + 1 := by omega
      rw [hidx, List.getElem?_cons_succ]
      exact hget

theorem matchingIdxFrom_append (l₁ l₂ : List (Int × Int)) (s : Int) :
    ∀ i, matchingIdxFrom i s (l₁ ++ l₂) =
      matchingIdxFrom i s l₁ ++ matchingIdxFrom (i + l₁.length) s l₂ := by
  induction l₁ with
  | nil => intro i; simp [matchingIdxFrom]
  | cons c cs ih =>
    intro i
    have harith : i + 1 + cs.length = i + (c :: cs).length := by
      simp only [List.length_cons]
      omega
    rw [List.cons_append]
    by_cases hc : c.1 ≤ s ∧ s ≤ c.2
    · rw [matchingIdxFrom_cons_pos i s c (cs ++ l₂) hc,
        matchingIdxFrom_cons_pos i s c cs hc, ih (i + 1), harith, List.cons_append]
    · rw [matchingIdxFrom_cons_neg i s c (cs ++ l₂) hc,
        matchingIdxFrom_cons_neg i s c cs hc, ih (i + 1), harith]

/-- Characterization of a successful `covStep`: either no region matched and
the span was appended, or exactly one region matched and its end was
expanded. -/
theorem covStep_eq_some (covs : List (Int × Int)) (sp : Int × Int)
    (covs' : List (Int × Int)) (h : covStep covs sp = some covs') :
    (matchingIdxFrom 0 sp.1 covs = [] ∧ covs' = covs ++ [sp]) ∨
    (∃ i c, matchingIdxFrom 0 sp.1 covs = [(i, c)] ∧
      covs[i]? = some c ∧ c.1 ≤ sp.1 ∧ sp.1 ≤ c.2 ∧
      covs' = covs.set i (c.1, max sp.2 c.2)) := by
  unfold covStep at h
  cases hm : matchingIdxFrom 0 sp.1 covs with
  | nil =>
    rw [hm] at h
    exact Or.inl ⟨rfl, (Option.some_inj.mp h).symm⟩
  | cons p ps =>
    cases ps with
    | nil =>
      obtain ⟨i, c⟩ := p
      rw [hm] at h
      have hmem := matchingIdxFrom_mem covs sp.1 0 (i, c)
        (by rw [hm]; exact List.mem_cons_self _ _)
      refine Or.inr ⟨i, c, rfl, ?_, hmem.2.2.1, hmem.2.2.2,
        (Option.some_inj.mp h).symm⟩
      simpa using hmem.2.1
    | cons q qs =>
      obtain ⟨i, c⟩ := p
      obtain ⟨j, d⟩ := q
      rw [hm] at h
      exact Option.noConfusion h

theorem mem_of_mem_set {α : Type _} :
    ∀ (l : List α) (i : Nat) (v c : α), c ∈ l.set i v → c ∈ l ∨ c = v := by
  intro l
  induction l with
  | nil => intro i v c hc; cases hc
  | cons a as ih =>
    intro i v c hc
    cases i with
    | zero =>
      rw [List.set_cons_zero] at hc
      rcases List.mem_cons.mp hc with rfl | hc
      · exact Or.inr rfl
      · exact Or.inl (List.mem_cons_of_mem _ hc)
    | succ n =>
      rw [List.set_cons_succ] at hc
      rcases List.mem_cons.mp hc with rfl | hc
      · exact Or.inl (List.mem_cons_self _ _)
      · rcases ih n v c hc with hc | rfl
        · exact Or.inl (List.mem_cons_of_mem _ hc)
        · exact Or.inr rfl

theorem mem_set_cases {α : Type _} :
    ∀ (l : List α) (i : Nat) (v c : α), c ∈ l → c ∈ l.set i v ∨ l[i]? = some c := by
  intro l
  induction l with
  | nil => intro i v c hc; cases hc
  | cons a as ih =>
    intro i v c hc
    cases i with
    | zero =>
      rcases List.mem_cons.mp hc with rfl | hc
      · exact Or.inr (by simp)
      · exact Or.inl (by rw [List.set_cons_zero]; exact List.mem_cons_of_mem _ hc)
    | succ n =>
      rcases List.mem_cons.mp hc with rfl | hc
      · exact Or.inl (by rw [List.set_cons_succ]; exact List.mem_cons_self _ _)
      · rcases ih n v c hc with hc2 | hc2
        · exact Or.inl (by rw [List.set_cons_succ]; exact List.mem_cons_of_mem _ hc2)
        · exact Or.inr (by rw [List.getElem?_cons_succ]; exact hc2)

theorem mem_set_self {α : Type _} :
    ∀ (l : List α) (i : Nat) (v : α), i < l.length → v ∈ l.set i v := by
  intro l
  induction l with
  | nil => intro i v h; simp at h
  | cons a as ih =>
    intro i v h
    cases i with
    | zero => rw [List.set_cons_zero]; exact List.mem_cons_self _ _
    | succ n =>
      rw [List.set_cons_succ]
      exact List.mem_cons_of_mem _ (ih n v (by simp at h; omega))

theorem set_append_last {α : Type _} :
    ∀ (front : List α) (c v : α), (front ++ [c]).set front.length v = front ++ [v] := by
  intro front
  induction front with
  | nil => intro c v; rfl
  | cons a as ih =>
    intro c v
    simp only [List.cons_append, List.length_cons, List.set_cons_succ, ih]

theorem removeFirst_cons_self (c : Int × Int) (cs : List (Int × Int)) :
    removeFirst (c :: cs) c = cs := by
  simp [removeFirst]

theorem mem_removeFirst_of_ne (v c : Int × Int) (hne : c ≠ v) :
    ∀ l : List (Int × Int), c ∈ l → c ∈ removeFirst l v := by
  intro l
  induction l with
  | nil => intro hc; cases hc
  | cons a as ih =>
    intro hc
    by_cases ha : a = v
    · subst ha
      rw [removeFirst_cons_self]
      rcases List.mem_cons.mp hc with rfl | hc
      · exact absurd rfl hne
      · exact hc
    · rw [removeFirst, if_neg ha]
      rcases List.mem_cons.mp hc with rfl | hc
      · exact List.mem_cons_self _ _
      · exact List.mem_cons_of_mem _ (ih hc)

theorem mem_of_mem_removeFirst (v c : Int × Int) :
    ∀ l : List (Int × Int), c ∈ removeFirst l v → c ∈ l := by
  intro l
  induction l with
  | nil => intro hc; cases hc
  | cons a as ih =>
    intro hc
    by_cases ha : a = v
    · subst ha
      rw [removeFirst_cons_self] at hc
      exact List.mem_cons_of_mem _ hc
    · rw [removeFirst, if_neg ha] at hc
      rcases List.mem_cons.mp hc with rfl | hc
      · exact List.mem_cons_self _ _
      · exact List.mem_cons_of_mem _ (ih hc)

theorem removeFirst_sublist (v : Int × Int) :
    ∀ l : List (Int × Int), (removeFirst l v).Sublist l := by
  intro l
  induction l with
  | nil => exact List.Sublist.refl _
  | cons a as ih =>
    by_cases ha : a = v
    · subst ha
      rw [removeFirst_cons_self]
      exact List.sublist_cons_self _ _
    · rw [removeFirst, if_neg ha]
      exact List.Sublist.cons₂ a ih

theorem zip_map_pair {α β γ : Type _} (f : α → β) (g : α → γ) :
    ∀ l : List α, (l.map f).zip (l.map g) = l.map (fun a => (f a, g a)) := by
  intro l
  induction l with
  | nil => rfl
  | cons a as ih => simp [List.zip_cons_cons, ih]

theorem mem_of_getElemQ {α : Type _} (l : List α) (n : Nat) (a : α)
    (h : l[n]? = some a) : a ∈ l := by
  obtain ⟨hlt, rfl⟩ := List.getElem?_eq_some.mp h
  exact List.getElem_mem hlt

/-! ### The loop invariant of `get_coverages` (no precondition on the spans) -/

/-- Invariant of the `get_coverages` accumulator after processing the spans
`P`: the sentinel-derived region sits at the head with start `1` and end at
least `1`, and no other region starts at `1`; every region is either the
untouched sentinel `(1,1)` or fully contains one of the processed spans
(its creating span); every point of a region other than the untouched
sentinel is covered by a processed span fully contained in that region; and
every processed span is fully contained in some region. -/
def CovInv (P : List (Int × Int)) (covs : List (Int × Int)) : Prop :=
  (∃ e rest, covs = ((1 : Int), e) :: rest ∧ 1 ≤ e ∧ ∀ c ∈ rest, c.1 ≠ 1) ∧
  (∀ c ∈ covs, c = (1, 1) ∨ ∃ sp ∈ P, c.1 ≤ sp.1 ∧ sp.2 ≤ c.2) ∧
  (∀ c ∈ covs, c = (1, 1) ∨ ∀ x : Int, c.1 ≤ x → x ≤ c.2 →
    ∃ sp ∈ P, c.1 ≤ sp.1 ∧ sp.2 ≤ c.2 ∧ sp.1 ≤ x ∧ x ≤ sp.2) ∧
  (∀ sp ∈ P, ∃ c ∈ covs, c.1 ≤ sp.1 ∧ sp.2 ≤ c.2)

theorem covInv_base : CovInv [] [(1, 1)] := by
  refine ⟨⟨1, [], rfl, le_refl 1, fun c hc => absurd hc (List.not_mem_nil c)⟩, ?_, ?_, ?_⟩
  · intro c hc
    rcases List.mem_singleton.mp hc with rfl
    exact Or.inl rfl
  · intro c hc
    rcases List.mem_singleton.mp hc with rfl
    exact Or.inl rfl
  · intro sp hsp
    cases hsp

theorem covInv_step (P : List (Int × Int)) (covs : List (Int × Int))
    (sp : Int × Int) (covs' : List (Int × Int))
    (hinv : CovInv P covs) (h : covStep covs sp = some covs') :
    CovInv (P ++ [sp]) covs' := by
  obtain ⟨⟨e, rest, hcv, he, hrest⟩, hcontain, hsound, hcomplete⟩ := hinv
  have hspP : sp ∈ P ++ [sp] := List.mem_append_right _ (List.mem_singleton.mpr rfl)
  rcases covStep_eq_some covs sp covs' h with ⟨hm, rfl⟩ | ⟨i, c, hm, hget, hc1, hc2, rfl⟩
  · -- append: no accumulated region contains sp.1
    have hsp1 : sp.1 ≠ 1 := by
      intro hsp1
      refine matchingIdxFrom_ne_nil covs sp.1 (1, e) ?_ ?_ ?_ 0 hm
      · rw [hcv]; exact List.mem_cons_self _ _
      · simp [hsp1]
      · simpa [hsp1] using he
    refine ⟨⟨e, rest ++ [sp], by rw [hcv, List.cons_append], he, ?_⟩, ?_, ?_, ?_⟩
    · intro c hc
      rcases List.mem_append.mp hc with hc | hc
      · exact hrest c hc
      · rcases List.mem_singleton.mp hc with rfl
        exact hsp1
    · intro c hc
      rcases List.mem_append.mp hc with hc | hc
      · rcases hcontain c hc with h1 | ⟨sp', hsp', h1, h2⟩
        · exact Or.inl h1
        · exact Or.inr ⟨sp', List.mem_append_left _ hsp', h1, h2⟩
      · rcases List.mem_singleton.mp hc with rfl
        exact Or.inr ⟨c, hspP, le_refl _, le_refl _⟩
    · intro c hc
      rcases List.mem_append.mp hc with hc | hc
      · rcases hsound c hc with h1 | h1
        · exact Or.inl h1
        · refine Or.inr fun x hx1 hx2 => ?_
          obtain ⟨sp', hsp', ha, hb, hx3, hx4⟩ := h1 x hx1 hx2
          exact ⟨sp', List.mem_append_left _ hsp', ha, hb, hx3, hx4⟩
      · rcases List.mem_singleton.mp hc with rfl
        exact Or.inr fun x hx1 hx2 => ⟨c, hspP, le_refl _, le_refl _, hx1, hx2⟩
    · intro sp' hsp'
      rcases List.mem_append.mp hsp' with hsp' | hsp'
      · obtain ⟨c, hc, h1, h2⟩ := hcomplete sp' hsp'
        exact ⟨c, List.mem_append_left _ hc, h1, h2⟩
      · rcases List.mem_singleton.mp hsp' with rfl
        exact ⟨sp', List.mem_append_right _ (List.mem_singleton.mpr rfl), le_refl _, le_refl _⟩
  · -- merge: exactly one region c at index i contains sp.1; it is expanded
    have hilen : i < covs.length := (List.getElem?_eq_some.mp hget).1
    have hcmem : c ∈ covs := mem_of_getElemQ covs i c hget
    have hvmem : (c.1, max sp.2 c.2) ∈ covs.set i (c.1, max sp.2 c.2) :=
      mem_set_self covs i _ hilen
    refine ⟨?_, ?_, ?_, ?_⟩
    · -- head structure is preserved
      cases i with
      | zero =>
        have hc0 : c = (1, e) := by
          rw [hcv] at hget
          simpa using hget.symm
        refine ⟨max sp.2 e, rest, ?_, le_trans he (le_max_right _ _), hrest⟩
        rw [hcv, List.set_cons_zero, hc0]
      | succ n =>
        have hcrest : rest[n]? = some c := by
          rw [hcv, List.getElem?_cons_succ] at hget
          exact hget
        refine ⟨e, rest.set n (c.1, max sp.2 c.2), ?_, he, ?_⟩
        · rw [hcv, List.set_cons_succ]
        · intro d hd
          rcases mem_of_mem_set rest n _ d hd with hd | rfl
          · exact hrest d hd
          · exact hrest c (mem_of_getElemQ rest n c hcrest)
    · -- every region contains a processed span or is the untouched sentinel
      intro d hd
      rcases mem_of_mem_set covs i _ d hd with hd | rfl
      · rcases hcontain d hd with h1 | ⟨sp', hsp', h1, h2⟩
        · exact Or.inl h1
        · exact Or.inr ⟨sp', List.mem_append_left _ hsp', h1, h2⟩
      · exact Or.inr ⟨sp, hspP, hc1, le_max_left _ _⟩
    · -- every point of a region is covered by a span contained in it
      intro d hd
      rcases mem_of_mem_set covs i _ d hd with hd | rfl
      · rcases hsound d hd with h1 | h1
        · exact Or.inl h1
        · refine Or.inr fun x hx1 hx2 => ?_
          obtain ⟨sp', hsp', ha, hb, hx3, hx4⟩ := h1 x hx1 hx2
          exact ⟨sp', List.mem_append_left _ hsp', ha, hb, hx3, hx4⟩
      · rcases hsound c hcmem with h1 | h1
        · -- the region was the untouched sentinel (1,1); sp.1 = 1
          rw [h1] at hc1 hc2 ⊢
          simp only at hc1 hc2 ⊢
          have hsp1 : sp.1 = 1 := le_antisymm hc2 hc1
          by_cases hsp2 : sp.2 ≤ 1
          · have hmax : max sp.2 (1 : Int) = 1 := by omega
            rw [hmax]
            exact Or.inl rfl
          · refine Or.inr fun x hx1 hx2 => ?_
            refine ⟨sp, hspP, by omega, le_max_left _ _, by omega, ?_⟩
            omega
        · refine Or.inr fun x hx1 hx2 => ?_
          simp only at hx1 hx2
          by_cases hxc : x ≤ c.2
          · obtain ⟨sp', hsp', ha, hb, hx3, hx4⟩ := h1 x hx1 hxc
            exact ⟨sp', List.mem_append_left _ hsp', ha,
              le_trans hb (le_max_right _ _), hx3, hx4⟩
          · refine ⟨sp, hspP, hc1, le_max_left _ _, by omega, by omega⟩
    · -- every processed span is contained in some region
      intro sp' hsp'
      rcases List.mem_append.mp hsp' with hsp' | hsp'
      · obtain ⟨d, hd, h1, h2⟩ := hcomplete sp' hsp'
        rcases mem_set_cases covs i _ d hd with hd2 | hd2
        · exact ⟨d, hd2, h1, h2⟩
        · have hdc : d = c := by
            rw [hget] at hd2
            exact (Option.some_inj.mp hd2).symm
          subst hdc
          exact ⟨(d.1, max sp.2 d.2), hvmem, h1, le_trans h2 (le_max_right _ _)⟩
      · rcases List.mem_singleton.mp hsp' with rfl
        exact ⟨(c.1, max sp'.2 c.2), hvmem, hc1, le_max_left _ _⟩

theorem covInv_loop :
    ∀ (spans P covs final : List (Int × Int)),
      CovInv P covs → covLoop covs spans = some final →
      CovInv (P ++ spans) final := by
  intro spans
  induction spans with
  | nil =>
    intro P covs final hinv hloop
    rw [List.append_nil]
    rw [covLoop] at hloop
    rw [← Option.some_inj.mp hloop]
    exact hinv
  | cons sp rest ih =>
    intro P covs final hinv hloop
    rw [covLoop] at hloop
    cases hstep : covStep covs sp with
    | none => rw [hstep] at hloop; exact Option.noConfusion hloop
    | some covs' =>
      rw [hstep] at hloop
      have := ih (P ++ [sp]) covs' final (covInv_step P covs sp covs' hinv hstep) hloop
      rwa [List.append_assoc, List.singleton_append] at this

/-- Consequences of the invariant after the sentinel removal: every
returned region contains one of the spans, every point of a returned region
is covered by a span contained in it, and (when no span equals the sentinel
value `(1,1)`) every point covered by a span lies in some returned region. -/
theorem removeSentinel_spec (P final : List (Int × Int)) (hinv : CovInv P final) :
    (∀ c ∈ removeSentinel final, ∃ sp ∈ P, c.1 ≤ sp.1 ∧ sp.2 ≤ c.2) ∧
    (∀ c ∈ removeSentinel final, ∀ x : Int, c.1 ≤ x → x ≤ c.2 →
      ∃ sp ∈ P, c.1 ≤ sp.1 ∧ sp.2 ≤ c.2 ∧ sp.1 ≤ x ∧ x ≤ sp.2) ∧
    (((1 : Int), (1 : Int)) ∉ P →
      ∀ sp ∈ P, ∀ x : Int, sp.1 ≤ x → x ≤ sp.2 →
        ∃ c ∈ removeSentinel final, c.1 ≤ x ∧ x ≤ c.2) := by
  obtain ⟨⟨e, rest, hcv, he, hrest⟩, hcontain, hsound, hcomplete⟩ := hinv
  have hne_rest : ∀ c ∈ rest, c ≠ ((1 : Int), (1 : Int)) := by
    intro c hc h11
    exact hrest c hc (by rw [h11])
  by_cases h11 : ((1 : Int), (1 : Int)) ∈ final
  · -- the sentinel was never expanded: e = 1 and the head is removed
    have he1 : e = 1 := by
      rw [hcv] at h11
      rcases List.mem_cons.mp h11 with heq | h1
      · exact (Prod.mk.injEq _ _ _ _ |>.mp heq.symm).2
      · exact absurd rfl (hne_rest _ h1)
    have hrs : removeSentinel final = rest := by
      rw [removeSentinel, if_pos h11, hcv, he1, removeFirst_cons_self]
    have hmemf : ∀ c ∈ rest, c ∈ final := by
      intro c hc
      rw [hcv]
      exact List.mem_cons_of_mem _ hc
    refine ⟨?_, ?_, ?_⟩
    · intro c hc
      rw [hrs] at hc
      rcases hcontain c (hmemf c hc) with h1 | h1
      · exact absurd h1 (hne_rest c hc)
      · exact h1
    · intro c hc
      rw [hrs] at hc
      rcases hsound c (hmemf c hc) with h1 | h1
      · exact absurd h1 (hne_rest c hc)
      · exact h1
    · intro hno sp hsp x hx1 hx2
      obtain ⟨d, hd, h1, h2⟩ := hcomplete sp hsp
      rw [hcv] at hd
      rcases List.mem_cons.mp hd with heq | hd
      · -- sp would be contained in the removed sentinel (1,1): then sp = (1,1)
        exfalso
        subst heq
        rw [he1] at h1 h2
        simp only at h1 h2
        have hx : sp = ((1 : Int), (1 : Int)) := by
          have : sp.1 = 1 := by omega
          have : sp.2 = 1 := by omega
          exact Prod.ext (by omega) (by omega)
        exact hno (hx ▸ hsp)
      · exact ⟨d, by rw [hrs]; exact hd, by omega, by omega⟩
  · -- no sentinel value present: nothing is removed
    have hrs : removeSentinel final = final := by
      rw [removeSentinel, if_neg h11]
    have hne_final : ∀ c ∈ final, c ≠ ((1 : Int), (1 : Int)) := by
      intro c hc h1
      exact h11 (h1 ▸ hc)
    refine ⟨?_, ?_, ?_⟩
    · intro c hc
      rw [hrs] at hc
      rcases hcontain c hc with h1 | h1
      · exact absurd h1 (hne_final c hc)
      · exact h1
    · intro c hc
      rw [hrs] at hc
      rcases hsound c hc with h1 | h1
      · exact absurd h1 (hne_final c hc)
      · exact h1
    · intro _ sp hsp x hx1 hx2
      obtain ⟨d, hd, h1, h2⟩ := hcomplete sp hsp
      exact ⟨d, by rw [hrs]; exact hd, by omega, by omega⟩

/-- Inversion of a successful `get_coverages` run into the loop result and
the sentinel removal. -/
theorem get_coverages_eq_some (starts ends : List Int) (covs : List (Int × Int))
    (h : get_coverages starts ends = some covs) :
    ∃ final, covLoop [(1, 1)] (starts.zip ends) = some final ∧
      covs = removeSentinel final := by
  unfold get_coverages at h
  cases hl : covLoop [(1, 1)] (starts.zip ends) with
  | none => rw [hl] at h; simp at h
  | some final =>
    rw [hl] at h
    simp only [Option.map_some'] at h
    exact ⟨final, rfl, (Option.some_inj.mp h).symm⟩

/-- Every region returned by `get_coverages` fully contains one of the
input spans (no precondition on the spans). -/
theorem get_coverages_contains (starts ends : List Int) (covs : List (Int × Int))
    (h : get_coverages starts ends = some covs) :
    ∀ c ∈ covs, ∃ sp ∈ starts.zip ends, c.1 ≤ sp.1 ∧ sp.2 ≤ c.2 := by
  obtain ⟨final, hloop, rfl⟩ := get_coverages_eq_some starts ends covs h
  have hinv := covInv_loop (starts.zip ends) [] [(1, 1)] final covInv_base hloop
  rw [List.nil_append] at hinv
  exact (removeSentinel_spec _ final hinv).1

/-- Every point of a region returned by `get_coverages` is covered by an
input span fully contained in that region. -/
theorem get_coverages_sound (starts ends : List Int) (covs : List (Int × Int))
    (h : get_coverages starts ends = some covs) :
    ∀ c ∈ covs, ∀ x : Int, c.1 ≤ x → x ≤ c.2 →
      ∃ sp ∈ starts.zip ends, c.1 ≤ sp.1 ∧ sp.2 ≤ c.2 ∧ sp.1 ≤ x ∧ x ≤ sp.2 := by
  obtain ⟨final, hloop, rfl⟩ := get_coverages_eq_some starts ends covs h
  have hinv := covInv_loop (starts.zip ends) [] [(1, 1)] final covInv_base hloop
  rw [List.nil_append] at hinv
  exact (removeSentinel_spec _ final hinv).2.1

/-- If no input span equals the sentinel value `(1,1)`, every point covered
by an input span lies in one of the returned regions. -/
theorem get_coverages_covers (starts ends : List Int) (covs : List (Int × Int))
    (h : get_coverages starts ends = some covs)
    (hno : ((1 : Int), (1 : Int)) ∉ starts.zip ends) :
    ∀ sp ∈ starts.zip ends, ∀ x : Int, sp.1 ≤ x → x ≤ sp.2 →
      ∃ c ∈ covs, c.1 ≤ x ∧ x ≤ c.2 := by
  obtain ⟨final, hloop, rfl⟩ := get_coverages_eq_some starts ends covs h
  have hinv := covInv_loop (starts.zip ends) [] [(1, 1)] final covInv_base hloop
  rw [List.nil_append] at hinv
  exact (removeSentinel_spec _ final hinv).2.2 hno

/-- If `f` maps every element of `l` to a singleton list related to it,
then `(l.map f).flatten` corresponds to `l` index by index. -/
theorem flatten_map_ones {α β : Type _} (R : α → β → Prop) :
    ∀ (l : List α) (f : α → List β),
      (∀ a ∈ l, ∃ b, f a = [b] ∧ R a b) →
      (l.map f).flatten.length = l.length ∧
      ∀ (i : Nat) (a : α) (b : β), l[i]? = some a →
        ((l.map f).flatten)[i]? = some b → R a b := by
  intro l
  induction l with
  | nil =>
    intro f _
    refine ⟨rfl, fun i a b ha _ => ?_⟩
    simp at ha
  | cons a as ih =>
    intro f h
    obtain ⟨b0, hfa, hR⟩ := h a (List.mem_cons_self _ _)
    obtain ⟨ihlen, ihr⟩ := ih f (fun a' ha' => h a' (List.mem_cons_of_mem _ ha'))
    have hfl : ((a :: as).map f).flatten = b0 :: (as.map f).flatten := by
      rw [List.map_cons, List.flatten_cons, hfa, List.singleton_append]
    refine ⟨by rw [hfl]; simp [ihlen], ?_⟩
    intro i a' b' ha' hb'
    rw [hfl] at hb'
    cases i with
    | zero =>
      rw [List.getElem?_cons_zero] at ha' hb'
      obtain rfl := Option.some_inj.mp ha'
      obtain rfl := Option.some_inj.mp hb'
      exact hR
    | succ n =>
      rw [List.getElem?_cons_succ] at ha' hb'
      exact ihr n a' b' ha' hb'

/-! ### C1: the chimera branch emits one best contained hit per interval -/

/-- **C1**: for a hit set with more than one hit, no full-length or
over-length hit, whose start-sorted spans merge into more than one interval,
`assign_tax` returns exactly one record per merged interval, in the order
the intervals were produced; the `i`-th record is tagged `chimera`, is a hit
of the input fully contained in the `i`-th interval
(`start >= interval.start` and `end <= interval.end`), and ranks at least as
well as every input hit fully contained in that interval under (ascending
`e_val`, descending `alignment_length`). -/
theorem assign_tax_chimera (df : List Hit) (covs : List (Int × Int))
    (hlen : 1 < df.length)
    (hnone1 : (sort_values ltEval df).find?
        (fun h => decide (h.query_length = h.alignment_length)) = none)
    (hnone2 : (sort_values ltEval df).find?
        (fun h => decide (h.query_length < h.alignment_length)) = none)
    (hcov : get_coverages
        ((sort_values ltStart (sort_values ltEval df)).map Hit.start)
        ((sort_values ltStart (sort_values ltEval df)).map Hit.end_) = some covs)
    (hchim : 1 < covs.length) :
    ∃ out : List SortedRow, assign_tax df = some out ∧ out.length = covs.length ∧
      ∀ (i : Nat) (c : Int × Int) (r : SortedRow),
        covs[i]? = some c → out[i]? = some r →
        r.origin = "chimera" ∧ r.hit ∈ df ∧
        c.1 ≤ r.hit.start ∧ r.hit.end_ ≤ c.2 ∧
        ∀ g ∈ df, c.1 ≤ g.start → g.end_ ≤ c.2 → ltEvalLen g r.hit = false := by
  have hne : df.length ≠ 1 := by omega
  have hne1 : ¬(covs.length = 1) := by omega
  -- each interval fully contains the span of some start-sorted hit
  have hzip : ((sort_values ltStart (sort_values ltEval df)).map Hit.start).zip
      ((sort_values ltStart (sort_values ltEval df)).map Hit.end_)
      = (sort_values ltStart (sort_values ltEval df)).map
          (fun h => (h.start, h.end_)) :=
    zip_map_pair Hit.start Hit.end_ _
  have hcontains := get_coverages_contains _ _ covs hcov
  rw [hzip] at hcontains
  -- for each interval, the selection over the contained hits is a singleton
  -- with the required properties
  have hsel : ∀ c ∈ covs, ∃ r : SortedRow,
      (best1 ((sort_values ltEval df).filter
        (fun h => decide (c.1 ≤ h.start ∧ h.end_ ≤ c.2)))).map
          (fun h => (⟨h, "chimera"⟩ : SortedRow)) = [r] ∧
      (r.origin = "chimera" ∧ r.hit ∈ df ∧
        c.1 ≤ r.hit.start ∧ r.hit.end_ ≤ c.2 ∧
        ∀ g ∈ df, c.1 ≤ g.start → g.end_ ≤ c.2 → ltEvalLen g r.hit = false) := by
    intro c hc
    obtain ⟨sp, hsp, hsp1, hsp2⟩ := hcontains c hc
    obtain ⟨h0, hh0, rfl⟩ := List.mem_map.mp hsp
    have hh0E : h0 ∈ sort_values ltEval df := (mem_sort_values _ _ _).mp hh0
    have hh0f : h0 ∈ (sort_values ltEval df).filter
        (fun h => decide (c.1 ≤ h.start ∧ h.end_ ≤ c.2)) := by
      rw [List.mem_filter]
      exact ⟨hh0E, decide_eq_true ⟨hsp1, hsp2⟩⟩
    obtain ⟨b, rest, hbr⟩ : ∃ b rest,
        sort_values ltEvalLen ((sort_values ltEval df).filter
          (fun h => decide (c.1 ≤ h.start ∧ h.end_ ≤ c.2))) = b :: rest := by
      cases hsv : sort_values ltEvalLen ((sort_values ltEval df).filter
          (fun h => decide (c.1 ≤ h.start ∧ h.end_ ≤ c.2))) with
      | nil =>
        exfalso
        have := (mem_sort_values ltEvalLen _ h0).mpr hh0f
        rw [hsv] at this
        cases this
      | cons x xs => exact ⟨x, xs, rfl⟩
    have hbest : best1 ((sort_values ltEval df).filter
        (fun h => decide (c.1 ≤ h.start ∧ h.end_ ≤ c.2))) = [b] := by
      rw [best1, hbr]
      rfl
    have hbf : b ∈ (sort_values ltEval df).filter
        (fun h => decide (c.1 ≤ h.start ∧ h.end_ ≤ c.2)) := by
      rw [← mem_sort_values ltEvalLen, hbr]
      exact List.mem_cons_self _ _
    obtain ⟨hbE, hbp⟩ := List.mem_filter.mp hbf
    obtain ⟨hb1, hb2⟩ := of_decide_eq_true hbp
    refine ⟨⟨b, "chimera"⟩, by rw [hbest]; rfl, rfl, ?_, hb1, hb2, ?_⟩
    · exact (mem_sort_values _ _ _).mp hbE
    · intro g hg hg1 hg2
      have hgf : g ∈ (sort_values ltEval df).filter
          (fun h => decide (c.1 ≤ h.start ∧ h.end_ ≤ c.2)) := by
        rw [List.mem_filter]
        exact ⟨(mem_sort_values _ _ _).mpr hg, decide_eq_true ⟨hg1, hg2⟩⟩
      exact sort_values_head_min ltEvalLen ltEvalLen_asym ltEvalLen_negtrans
        _ b rest hbr g hgf
  obtain ⟨hlenout, hidx⟩ := flatten_map_ones
    (fun c r => r.origin = "chimera" ∧ r.hit ∈ df ∧
      c.1 ≤ r.hit.start ∧ r.hit.end_ ≤ c.2 ∧
      ∀ g ∈ df, c.1 ≤ g.start → g.end_ ≤ c.2 → ltEvalLen g r.hit = false)
    covs
    (fun c => (best1 ((sort_values ltEval df).filter
      (fun h => decide (c.1 ≤ h.start ∧ h.end_ ≤ c.2)))).map
        (fun h => (⟨h, "chimera"⟩ : SortedRow)))
    hsel
  refine ⟨_, ?_, hlenout, hidx⟩
  simp [assign_tax, hne, hnone1, hnone2, hcov, hne1]

/-- Hit in the second region of the chimera test (test_chimera). -/
def hitC3 : Hit := ⟨"k1_1", "GCF_003", 0, 500, 200, 301, 500⟩

/-- Weaker hit in the second region of the chimera test (test_chimera). -/
def hitC4 : Hit := ⟨"k1_1", "GCF_004", eVal005, 500, 250, 251, 500⟩

/-- **C1 witness**: the four-hit chimera example; the spans merge into the
two intervals `(1,201)` and `(251,500)` and one best contained hit is
emitted per interval, in interval order, tagged `chimera`. -/
theorem assign_tax_chimera_witness :
    ∃ out : List SortedRow,
      assign_tax [hitC1, hitC2, hitC3, hitC4] = some out ∧
      out.length = [((1 : Int), (201 : Int)), (251, 500)].length ∧
      ∀ (i : Nat) (c : Int × Int) (r : SortedRow),
        [((1 : Int), (201 : Int)), (251, 500)][i]? = some c → out[i]? = some r →
        r.origin = "chimera" ∧ r.hit ∈ [hitC1, hitC2, hitC3, hitC4] ∧
        c.1 ≤ r.hit.start ∧ r.hit.end_ ≤ c.2 ∧
        ∀ g ∈ [hitC1, hitC2, hitC3, hitC4], c.1 ≤ g.start → g.end_ ≤ c.2 →
          ltEvalLen g r.hit = false :=
  assign_tax_chimera [hitC1, hitC2, hitC3, hitC4] [(1, 201), (251, 500)]
    (by decide) (by decide) (by decide) (by decide) (by decide)

/-! ### C6 amended: completeness when no span equals the sentinel -/

/-- **C6 amended**: for every start-sorted list of spans none of which is
exactly `(1,1)`, whenever `get_coverages` returns at least two intervals
(the chimera case), the union of the returned intervals' coordinate ranges
equals the union of the input spans' ranges: no contig region covered by a
span is dropped. -/
theorem get_coverages_complete_no_sentinel_span (spans : List (Int × Int))
    (covs : List (Int × Int))
    (hsort : spans.Pairwise (fun a b => a.1 ≤ b.1))
    (hno : ((1 : Int), (1 : Int)) ∉ spans)
    (hcov : get_coverages (spans.map Prod.fst) (spans.map Prod.snd) = some covs)
    (hchim : 2 ≤ covs.length) :
    ∀ x : Int, (∃ c ∈ covs, c.1 ≤ x ∧ x ≤ c.2) ↔
      ∃ sp ∈ spans, sp.1 ≤ x ∧ x ≤ sp.2 := by
  have hzip : (spans.map Prod.fst).zip (spans.map Prod.snd) = spans := by
    rw [zip_map_pair]
    simp
  intro x
  constructor
  · rintro ⟨c, hc, hx1, hx2⟩
    obtain ⟨sp, hsp, _, _, h3, h4⟩ := get_coverages_sound _ _ covs hcov c hc x hx1 hx2
    rw [hzip] at hsp
    exact ⟨sp, hsp, h3, h4⟩
  · rintro ⟨sp, hsp, hx1, hx2⟩
    have hno' : ((1 : Int), (1 : Int)) ∉
        (spans.map Prod.fst).zip (spans.map Prod.snd) := by
      rw [hzip]
      exact hno
    exact get_coverages_covers _ _ covs hcov hno' sp (by rw [hzip]; exact hsp) x hx1 hx2

/-- **C6 amended witness**: on the sentinel-free spans `(1,10), (20,30)`
(two returned intervals) the point `25` is covered by an interval exactly
as it is covered by a span. -/
theorem get_coverages_complete_no_sentinel_span_witness :
    (∃ c ∈ [((1 : Int), (10 : Int)), (20, 30)], c.1 ≤ 25 ∧ 25 ≤ c.2) ↔
      ∃ sp ∈ [((1 : Int), (10 : Int)), (20, 30)], sp.1 ≤ 25 ∧ 25 ≤ sp.2 :=
  get_coverages_complete_no_sentinel_span [(1, 10), (20, 30)] [(1, 10), (20, 30)]
    (by decide) (by decide) (by decide) (by decide) 25

/-! ### The sorted-spans invariant: disjoint ascending intervals -/

/-- Running the merge loop over start-sorted spans whose starts are no less
than the start of the last accumulated region always succeeds (each span
overlaps at most the last region, so `np.where` yields at most one index),
keeps the regions pairwise disjoint in ascending order, and keeps the
accumulator nonempty. -/
theorem covLoop_sorted :
    ∀ (spans front : List (Int × Int)) (lastc : Int × Int),
      (front ++ [lastc]).Pairwise (fun c d => c.2 < d.1) →
      (∀ sp ∈ spans, lastc.1 ≤ sp.1) →
      spans.Pairwise (fun a b => a.1 ≤ b.1) →
      ∃ final, covLoop (front ++ [lastc]) spans = some final ∧
        final.Pairwise (fun c d => c.2 < d.1) := by
  intro spans
  induction spans with
  | nil =>
    intro front lastc hpw _ _
    exact ⟨front ++ [lastc], rfl, hpw⟩
  | cons sp rest ih =>
    intro front lastc hpw hstart hsort
    have hsp : lastc.1 ≤ sp.1 := hstart sp (List.mem_cons_self _ _)
    obtain ⟨hsortsp, hsortrest⟩ := List.pairwise_cons.mp hsort
    have hpwparts := List.pairwise_append.mp hpw
    have hfront_lt : ∀ c ∈ front, c.2 < lastc.1 := by
      intro c hc
      exact hpwparts.2.2 c hc lastc (List.mem_singleton.mpr rfl)
    have hfront_no : ∀ c ∈ front, ¬(c.1 ≤ sp.1 ∧ sp.1 ≤ c.2) := by
      intro c hc h
      have := hfront_lt c hc
      omega
    have hmfront : matchingIdxFrom 0 sp.1 front = [] :=
      matchingIdxFrom_eq_nil front sp.1 0 hfront_no
    have hsplit := matchingIdxFrom_append front [lastc] sp.1 0
    rw [hmfront, List.nil_append] at hsplit
    by_cases hml : sp.1 ≤ lastc.2
    · -- the span merges into the last region
      have hmlast : matchingIdxFrom (0 + front.length) sp.1 [lastc]
          = [(0 + front.length, lastc)] := by
        rw [matchingIdxFrom_cons_pos _ _ _ _ ⟨hsp, hml⟩]
        rfl
      rw [hmlast] at hsplit
      have hstep : covStep (front ++ [lastc]) sp
          = some (front ++ [(lastc.1, max sp.2 lastc.2)]) := by
        unfold covStep
        rw [hsplit]
        show some ((front ++ [lastc]).set (0 + front.length)
          (lastc.1, max sp.2 lastc.2)) = _
        have h0 : 0 + front.length = front.length := by omega
        rw [h0, set_append_last]
      have hpw2 : (front ++ [(lastc.1, max sp.2 lastc.2)]).Pairwise
          (fun c d => c.2 < d.1) := by
        rw [List.pairwise_append]
        refine ⟨hpwparts.1, List.pairwise_singleton _ _, ?_⟩
        intro c hc d hd
        rcases List.mem_singleton.mp hd with rfl
        exact hfront_lt c hc
      have hstart2 : ∀ sp' ∈ rest, (lastc.1, max sp.2 lastc.2).1 ≤ sp'.1 := by
        intro sp' hsp'
        have := hsortsp sp' hsp'
        simp only
        omega
      obtain ⟨final, hloop, hpwf⟩ := ih front (lastc.1, max sp.2 lastc.2)
        hpw2 hstart2 hsortrest
      refine ⟨final, ?_, hpwf⟩
      rw [covLoop, hstep]
      exact hloop
    · -- the span opens a new region after the last one
      have hmlast : matchingIdxFrom (0 + front.length) sp.1 [lastc] = [] := by
        rw [matchingIdxFrom_cons_neg _ _ _ _ (fun h => hml h.2)]
        rfl
      rw [hmlast] at hsplit
      have hstep : covStep (front ++ [lastc]) sp
          = some ((front ++ [lastc]) ++ [sp]) := by
        unfold covStep
        rw [hsplit]
      have hpw2 : ((front ++ [lastc]) ++ [sp]).Pairwise (fun c d => c.2 < d.1) := by
        rw [List.pairwise_append]
        refine ⟨hpw, List.pairwise_singleton _ _, ?_⟩
        intro c hc d hd
        rcases List.mem_singleton.mp hd with rfl
        rcases List.mem_append.mp hc with hc | hc
        · have := hfront_lt c hc
          omega
        · rcases List.mem_singleton.mp hc with rfl
          omega
      have hstart2 : ∀ sp' ∈ rest, sp.1 ≤ sp'.1 := fun sp' hsp' => hsortsp sp' hsp'
      obtain ⟨final, hloop, hpwf⟩ := ih (front ++ [lastc]) sp hpw2 hstart2 hsortrest
      refine ⟨final, ?_, hpwf⟩
      rw [covLoop, hstep]
      exact hloop

/-! ### C5 amended: the merge of 1-based sorted spans -/

/-- **C5 amended**: for every list of spans sorted ascending by start whose
starts are all at least `1` (1-based query coordinates, as in the data
model), `get_coverages` succeeds and returns intervals that are pairwise
non-overlapping and in ascending coordinate order — which, the input being
start-sorted, is the first-encountered order of their origin spans — and
each interval's range is exactly the union of the ranges of the input spans
fully contained in it (the spans that chain-overlap into it). -/
theorem get_coverages_sorted_spec (spans : List (Int × Int))
    (hsort : spans.Pairwise (fun a b => a.1 ≤ b.1))
    (hpos : ∀ sp ∈ spans, 1 ≤ sp.1) :
    ∃ covs, get_coverages (spans.map Prod.fst) (spans.map Prod.snd) = some covs ∧
      covs.Pairwise (fun c d => c.2 < d.1) ∧
      ∀ c ∈ covs, ∀ x : Int, (c.1 ≤ x ∧ x ≤ c.2) ↔
        ∃ sp ∈ spans, c.1 ≤ sp.1 ∧ sp.2 ≤ c.2 ∧ sp.1 ≤ x ∧ x ≤ sp.2 := by
  have hzip : (spans.map Prod.fst).zip (spans.map Prod.snd) = spans := by
    rw [zip_map_pair]
    simp
  have hpw1 : (([] : List (Int × Int)) ++ [((1 : Int), (1 : Int))]).Pairwise
      (fun c d => c.2 < d.1) := by
    rw [List.nil_append]
    exact List.pairwise_singleton _ _
  obtain ⟨final, hloop, hpwf⟩ :=
    covLoop_sorted spans [] (1, 1) hpw1 (fun sp hsp => hpos sp hsp) hsort
  rw [List.nil_append] at hloop
  have hcov : get_coverages (spans.map Prod.fst) (spans.map Prod.snd)
      = some (removeSentinel final) := by
    unfold get_coverages
    rw [hzip, hloop]
    rfl
  refine ⟨removeSentinel final, hcov, ?_, ?_⟩
  · -- pairwise disjointness survives the sentinel removal
    have hsub : (removeSentinel final).Sublist final := by
      rw [removeSentinel]
      by_cases h11 : ((1 : Int), (1 : Int)) ∈ final
      · rw [if_pos h11]
        exact removeFirst_sublist _ final
      · rw [if_neg h11]
    exact hpwf.sublist hsub
  · intro c hc x
    constructor
    · rintro ⟨hx1, hx2⟩
      obtain ⟨sp, hsp, h1, h2, h3, h4⟩ :=
        get_coverages_sound _ _ _ hcov c hc x hx1 hx2
      rw [hzip] at hsp
      exact ⟨sp, hsp, h1, h2, h3, h4⟩
    · rintro ⟨sp, hsp, h1, h2, h3, h4⟩
      constructor <;> omega

/-- **C5 amended witness**: on the sorted 1-based spans `(2,5), (3,6)` the
merger returns the single interval `(2,6)`, trivially disjoint and equal to
the union of its two contained spans (checked at the point `4`). -/
theorem get_coverages_sorted_spec_witness :
    ∃ covs, get_coverages [2, 3] [5, 6] = some covs ∧
      covs.Pairwise (fun c d => c.2 < d.1) ∧
      ∀ c ∈ covs, ∀ x : Int, (c.1 ≤ x ∧ x ≤ c.2) ↔
        ∃ sp ∈ [((2 : Int), (5 : Int)), (3, 6)],
          c.1 ≤ sp.1 ∧ sp.2 ≤ c.2 ∧ sp.1 ≤ x ∧ x ≤ sp.2 :=
  get_coverages_sorted_spec [(2, 5), (3, 6)] (by decide) (by decide)
